import Mathlib

set_option maxRecDepth 100000

/-!
Shallow embedding of the go-lnds repository: two Go implementations of the
longest non-decreasing subsequence partition, `lis.LIS` (src/lis/lis.go) and
`lnds.PartitionUnsorted` (src/lnds/lnds.go).

Go slices are lists, Go ints are `Int` (indices that are provably non-negative
are `Nat`), and every operation that can panic in Go (out-of-range indexing,
`make` with length above capacity) or hang returns `none`. Loops whose
termination is not structural carry a fuel argument chosen large enough that
it can never be exhausted before the loop exits or panics.
-/

namespace GoLnds

/-- Three-way comparator on `Int` with the contract of Go cmp.Compare:
-1 / 0 / +1 for less / equal / greater. -/
def intCmp (a b : Int) : Int :=
  if a < b then -1 else if a = b then 0 else 1

/-- Checked read `l[i]` with a Go int index: `none` models the index-out-of-range
panic. -/
def getI (l : List β) (i : Int) : Option β :=
  if i < 0 then none else l.get? i.toNat

/-- Checked write `l[i] = v` with a Nat index: `none` models the
index-out-of-range panic. -/
def setN (l : List β) (i : Nat) (v : β) : Option (List β) :=
  if i < l.length then some (l.set i v) else none

/-- Checked write `l[i] = v` with a Go int index (used for the output buffers,
whose write cursors can go negative). -/
def setI (l : List β) (i : Int) (v : β) : Option (List β) :=
  if 0 ≤ i ∧ i.toNat < l.length then some (l.set i.toNat v) else none

/-- A list is non-decreasing under `cmp` when no adjacent pair compares
greater, the reading used throughout the spec. -/
def nonDecr (cmp : α → α → Int) : List α → Bool
  | [] => true
  | [_] => true
  | a :: b :: rest => decide (cmp a b ≤ 0) && nonDecr cmp (b :: rest)

/-- Brute-force length of the longest non-decreasing subsequence: the maximum
length over all sublists that are non-decreasing under `cmp` (the spec's
reference for the maximality property). -/
def lndsLength (cmp : α → α → Int) (lst : List α) : Nat :=
  ((lst.sublists.filter (fun s => nonDecr cmp s)).map List.length).foldr Nat.max 0

namespace lis

/-- Loop body of `bisectRight` (src/lis/lis.go): binary search over `vs` with
`low`/`high` cursors. `f` is the caller's comparator closure applied to an
element of `vs`; it returns `none` when the closure itself would panic. The
interval shrinks strictly every iteration, so fuel `vs.length + 1` is never
exhausted; the fuel-0 case with `low < high` is unreachable. -/
def bisectGo (vs : List Nat) (f : Nat → Option Int) : Nat → Nat → Nat → Option Nat
  | low, high, 0 => if low < high then none else some low
  | low, high, fuel + 1 =>
    if low < high then
      let mid := (low + high) / 2
      match vs.get? mid with
      | none => none
      | some v =>
        match f v with
        | none => none
        | some c =>
          if c > 0 then bisectGo vs f low mid fuel
          else bisectGo vs f (mid + 1) high fuel
    else some low

/-- bisectRight from src/lis/lis.go: the position one past the final occurrence
of the target, i.e. the leftmost position whose element compares strictly
greater. -/
def bisectRight (vs : List Nat) (f : Nat → Option Int) : Option Nat :=
  bisectGo vs f 0 vs.length (vs.length + 1)

/-- The two local arrays of LIS: `tails` (indices of best subsequence ends per
length) and `prev` (backlinks, -1 the sentinel). -/
structure BState where
  tails : List Nat
  prev : List Int
  deriving DecidableEq

/-- One iteration of the main loop of LIS over input position `i`. -/
def step (lst : List α) (cmp : α → α → Int) (st : BState) (i : Nat) : Option BState :=
  if i = 0 then
    (setN st.prev 0 (-1)).bind fun p =>
      (setN st.tails 0 0).map fun t => BState.mk t p
  else
    (getI st.tails ((st.tails.length : Int) - 1)).bind fun idxOfBestTail =>
      (lst.get? i).bind fun vi =>
        (lst.get? idxOfBestTail).bind fun vBest =>
          if cmp vi vBest ≥ 0 then
            (setN st.prev i (idxOfBestTail : Int)).map fun p =>
              BState.mk (st.tails ++ [i]) p
          else
            (bisectRight st.tails.dropLast
                (fun idx => (lst.get? idx).map fun v => cmp v vi)).bind fun replaceIdx =>
              (if replaceIdx = 0 then some (-1 : Int)
               else (st.tails.get? (replaceIdx - 1)).map fun t => (t : Int)).bind fun pv =>
                (setN st.prev i pv).bind fun p =>
                  (setN st.tails replaceIdx i).map fun t => BState.mk t p

/-- The main loop of LIS, iterating `step` over the given input positions. -/
def loop (lst : List α) (cmp : α → α → Int) : BState → List Nat → Option BState
  | st, [] => some st
  | st, i :: rest =>
    match step lst cmp st i with
    | none => none
    | some st' => loop lst cmp st' rest

/-- The builder pass of LIS: tails starts as `make([]int, 1, n)` (one zero
entry), prev as `make([]int, n)` (all zeros). -/
def build (lst : List α) (cmp : α → α → Int) : Option BState :=
  loop lst cmp (BState.mk [0] (List.replicate lst.length 0)) (List.range lst.length)

/-- The labelled `output:` loop at the end of LIS, one combined step per value
of `allIdx`; the first argument is `allIdx + 1`, so 0 means `allIdx < 0` and
the loop breaks. When `seqIdx` is neither equal to nor below `allIdx` the Go
loop spins forever, modelled by `none`. -/
def outputGo (lst : List α) (prev : List Int) :
    Nat → Int → List α → List α → Int → Int → Option (List α × List α)
  | 0, _, sorted, rest, _, _ => some (sorted, rest)
  | m + 1, seqIdx, sorted, rest, sortedIdx, restIdx =>
    if seqIdx = (m : Int) then
      (getI lst seqIdx).bind fun v =>
        (getI prev seqIdx).bind fun p =>
          (setI sorted sortedIdx v).bind fun sorted' =>
            outputGo lst prev m p sorted' rest (sortedIdx - 1) restIdx
    else if seqIdx < (m : Int) then
      (getI lst (m : Int)).bind fun v =>
        (setI rest restIdx v).bind fun rest' =>
          outputGo lst prev m seqIdx sorted rest' sortedIdx (restIdx - 1)
    else none

/-- lis.LIS from src/lis/lis.go. `none` marks a run in which the Go code would
panic or hang; the Go `nil, nil` for the empty input is the pair of empty
lists. -/
def LIS [Inhabited α] (lst : List α) (cmp : α → α → Int) : Option (List α × List α) :=
  if lst.length = 0 then some ([], [])
  else
    (build lst cmp).bind fun st =>
      let sorted := List.replicate st.tails.length (default : α)
      let rest := List.replicate (lst.length - st.tails.length) (default : α)
      (getI st.tails ((st.tails.length : Int) - 1)).bind fun seqIdx =>
        outputGo lst st.prev lst.length (seqIdx : Int) sorted rest
          ((sorted.length : Int) - 1) ((rest.length : Int) - 1)

end lis

namespace lnds

/-- The state struct of src/lnds/lnds.go (the `cmp` field is passed as an
explicit argument instead of being stored). -/
structure state (α : Type) where
  elts : List α
  tails : List Nat
  prev : List Int
  deriving DecidableEq

/-- state.eltIdxCmp: `cmp(elts[a], elts[b])`, `none` when an index is out of
range. -/
def eltIdxCmp (cmp : α → α → Int) (elts : List α) (a b : Nat) : Option Int :=
  (elts.get? a).bind fun x => (elts.get? b).map fun y => cmp x y

/-- Loop of the standard library slices.BinarySearchFunc: leftmost position
whose element does not compare less than the target. Fuel as in `bisectGo`. -/
def bsearchGo (vs : List Nat) (f : Nat → Option Int) : Nat → Nat → Nat → Option Nat
  | i, j, 0 => if i < j then none else some i
  | i, j, fuel + 1 =>
    if i < j then
      let h := (i + j) / 2
      match vs.get? h with
      | none => none
      | some e =>
        match f e with
        | none => none
        | some c =>
          if c < 0 then bsearchGo vs f (h + 1) j fuel
          else bsearchGo vs f i h fuel
    else some i

/-- slices.BinarySearchFunc: the insertion position together with whether the
element at that position compares equal to the target. -/
def binarySearchFunc (vs : List Nat) (f : Nat → Option Int) : Option (Nat × Bool) :=
  (bsearchGo vs f 0 vs.length (vs.length + 1)).bind fun i =>
    if hi : i < vs.length then
      (f (vs.get ⟨i, hi⟩)).map fun c => (i, c == 0)
    else some (i, false)

/-- The `for`/`switch` loop inside state.process that runs when the binary
search reports `found`. In Go, `break` inside the `switch` leaves only the
switch, and `continue` and falling out of the switch both continue the `for`,
so the loop leaves only through the `return` of case -1 or by indexing
`elts` out of range (case 0, case +1 and any other comparator value all keep
scanning). The loop compares `elts[replaceIdx]` — a tails position used as an
input position — exactly as the source does. `some ()` is the `return`
statement, `none` the panic. The index grows by one per step and the loop
panics as soon as it reaches `elts.length`, so fuel `elts.length + 1` is never
exhausted. -/
def foundScan (cmp : α → α → Int) (elts : List α) (newIdx : Nat) : Nat → Nat → Option Unit
  | _, 0 => none
  | j, fuel + 1 =>
    match eltIdxCmp cmp elts j newIdx with
    | none => none
    | some c => if c = -1 then some () else foundScan cmp elts newIdx (j + 1) fuel

/-- state.process from src/lnds/lnds.go. -/
def process (cmp : α → α → Int) (st : state α) (newIdx : Nat) : Option (state α) :=
  if newIdx = 0 then
    (setN st.prev 0 (-1)).bind fun p =>
      (setN st.tails 0 0).map fun t => state.mk st.elts t p
  else
    (getI st.tails ((st.tails.length : Int) - 1)).bind fun curBestIdx =>
      (st.elts.get? newIdx).bind fun vNew =>
        (st.elts.get? curBestIdx).bind fun vBest =>
          if cmp vNew vBest ≥ 0 then
            (setN st.prev newIdx (curBestIdx : Int)).map fun p =>
              state.mk st.elts (st.tails ++ [newIdx]) p
          else
            (binarySearchFunc st.tails (fun t => eltIdxCmp cmp st.elts t newIdx)).bind
              fun rf =>
                if rf.2 then
                  (foundScan cmp st.elts newIdx (rf.1 + 1) (st.elts.length + 1)).map
                    fun _ => st
                else
                  (if rf.1 = 0 then some (-1 : Int)
                   else (st.tails.get? (rf.1 - 1)).map fun t => (t : Int)).bind fun pv =>
                    (setN st.prev newIdx pv).bind fun p =>
                      (setN st.tails rf.1 newIdx).map fun t => state.mk st.elts t p

/-- The loop of state.run, iterating `process` over the given input
positions. -/
def runLoop (cmp : α → α → Int) : state α → List Nat → Option (state α)
  | st, [] => some st
  | st, i :: rest =>
    match process cmp st i with
    | none => none
    | some st' => runLoop cmp st' rest

/-- The backward walk of state.result, one combined step per value of
`allIdx`; the first argument is `allIdx + 1`, so 0 means `allIdx < 0` and the
outer loop exits. When `seqIdx` is neither equal to nor below `allIdx` the Go
loop spins forever, modelled by `none`. -/
def resultGo (elts : List α) (prev : List Int) :
    Nat → Int → List α → List α → Int → Int → Option (List α × List α)
  | 0, _, sorted, unsorted, _, _ => some (sorted, unsorted)
  | m + 1, seqIdx, sorted, unsorted, sortedIdx, unsortedIdx =>
    if seqIdx = (m : Int) then
      (getI elts seqIdx).bind fun v =>
        (getI prev seqIdx).bind fun p =>
          (setI sorted sortedIdx v).bind fun sorted' =>
            resultGo elts prev m p sorted' unsorted (sortedIdx - 1) unsortedIdx
    else if seqIdx < (m : Int) then
      (getI elts (m : Int)).bind fun v =>
        (setI unsorted unsortedIdx v).bind fun unsorted' =>
          resultGo elts prev m seqIdx sorted unsorted' sortedIdx (unsortedIdx - 1)
    else none

/-- state.result from src/lnds/lnds.go. -/
def result [Inhabited α] (st : state α) : Option (List α × List α) :=
  let sorted := List.replicate st.tails.length (default : α)
  let unsorted := List.replicate (st.elts.length - st.tails.length) (default : α)
  (getI st.tails ((st.tails.length : Int) - 1)).bind fun seqIdx =>
    resultGo st.elts st.prev st.elts.length (seqIdx : Int) sorted unsorted
      ((sorted.length : Int) - 1) ((unsorted.length : Int) - 1)

/-- state.run from src/lnds/lnds.go: process every position, then either
short-circuit when the whole input is sorted or run the general
reconstruction. -/
def run [Inhabited α] (cmp : α → α → Int) (st0 : state α) : Option (List α × List α) :=
  (runLoop cmp st0 (List.range st0.elts.length)).bind fun st =>
    if st.tails.length = st.elts.length then some (st.elts, [])
    else result st

/-- lnds.PartitionUnsorted from src/lnds/lnds.go. `make([]int, 1, len(lst))`
panics when `len(lst) = 0` — the requested length 1 is above the capacity —
so the empty input is the `none` branch. -/
def PartitionUnsorted [Inhabited α] (lst : List α) (cmp : α → α → Int) :
    Option (List α × List α) :=
  if lst.length < 1 then none
  else run cmp (state.mk lst [0] (List.replicate lst.length 0))

end lnds

/-!
Lemmas leading to the short-circuit/general-path equivalence of lnds.run:
when the builder finishes with one tails entry per input element, every
element went down the fast path, tails is the identity chain, and the
backward reconstruction reproduces the whole input as the kept output with
nothing removed.
-/

theorem setN_eq_some {l l' : List β} {i : Nat} {v : β} :
    setN l i v = some l' ↔ i < l.length ∧ l' = l.set i v := by
  unfold setN
  split <;> rename_i h
  · simp [h, eq_comm]
  · simp [h]

theorem getI_last_range {k : Nat} (hk : 1 ≤ k) :
    getI (List.range k) ((k : Int) - 1) = some (k - 1) := by
  unfold getI
  rw [if_neg (by omega)]
  have ht : ((k : Int) - 1).toNat = k - 1 := by omega
  rw [ht, List.get?_range (by omega)]

theorem getI_nonneg {l : List β} {i : Int} (h : 0 ≤ i) : getI l i = l.get? i.toNat := by
  unfold getI
  rw [if_neg (by omega)]

theorem setI_eq_some (l : List β) (i : Int) (v : β)
    (h0 : 0 ≤ i) (h1 : i.toNat < l.length) : setI l i v = some (l.set i.toNat v) := by
  unfold setI
  rw [if_pos ⟨h0, h1⟩]

theorem set_replicate_append (d v : β) (t : List β) :
    ∀ m, (List.replicate (m + 1) d ++ t).set m v = List.replicate m d ++ (v :: t)
  | 0 => rfl
  | m + 1 => by
    rw [List.replicate_succ, List.cons_append, List.set_cons_succ,
      set_replicate_append d v t m, List.replicate_succ, List.cons_append]

theorem range_one_eq : List.range 1 = [0] := rfl

/-- Invariant of the lnds builder after the first `k` input positions have
been processed: the input is never touched, prev keeps its size, tails holds
at most one entry per processed position, and when it is full — one entry
per processed position — it is exactly the identity chain 0,1,...,k-1 with
prev linking each position to its predecessor. -/
def Inv (lst : List α) (k : Nat) (st : lnds.state α) : Prop :=
  st.elts = lst ∧ st.prev.length = lst.length ∧ st.tails.length ≤ k ∧
    (st.tails.length = k →
      st.tails = List.range k ∧
        ∀ j, j < k → st.prev.get? j = some (if j = 0 then -1 else (j : Int) - 1))

theorem inv_step {lst : List α} {cmp : α → α → Int} {k : Nat} {st st' : lnds.state α}
    (hk : 1 ≤ k) (hinv : Inv lst k st) (hp : lnds.process cmp st k = some st') :
    Inv lst (k + 1) st' := by
  obtain ⟨he, hpl, hlen, hfull⟩ := hinv
  unfold lnds.process at hp
  rw [if_neg (by omega : ¬ (k = 0))] at hp
  rw [Option.bind_eq_some] at hp
  obtain ⟨curBestIdx, hcb, hp⟩ := hp
  rw [Option.bind_eq_some] at hp
  obtain ⟨vNew, hvN, hp⟩ := hp
  rw [Option.bind_eq_some] at hp
  obtain ⟨vBest, hvB, hp⟩ := hp
  have hkl : k < st.elts.length := by
    by_contra hc
    rw [List.get?_eq_none.mpr (by omega)] at hvN
    exact Option.noConfusion hvN
  by_cases hfast : cmp vNew vBest ≥ 0
  · rw [if_pos hfast, Option.map_eq_some'] at hp
    obtain ⟨p, hsp, hst'⟩ := hp
    rw [setN_eq_some] at hsp
    obtain ⟨hpb, hpe⟩ := hsp
    subst hst'
    subst hpe
    refine ⟨he, by simpa using hpl, by simp; omega, ?_⟩
    intro hfl
    simp at hfl
    obtain ⟨htr, hpv⟩ := hfull (by omega)
    constructor
    · simpa [htr] using (List.range_succ k).symm
    · intro j hj
      rw [htr, List.length_range, getI_last_range hk] at hcb
      have hcbe : curBestIdx = k - 1 := by
        injection hcb with h
        omega
      by_cases hjk : j = k
      · subst hjk
        simp only [lnds.state.mk.injEq]
        rw [List.get?_set_eq_of_lt _ (by omega)]
        rw [if_neg (by omega)]
        subst hcbe
        congr 1
        omega
      · simp only []
        rw [List.get?_set_ne _ _ (fun h => hjk h.symm)]
        exact hpv j (by omega)
  · rw [if_neg hfast, Option.bind_eq_some] at hp
    obtain ⟨rf, hbs, hp⟩ := hp
    by_cases hb : rf.2
    · rw [if_pos hb, Option.map_eq_some'] at hp
      obtain ⟨u, _, hst'⟩ := hp
      subst hst'
      exact ⟨he, hpl, by omega, fun hfl => absurd hfl (by omega)⟩
    · rw [if_neg hb, Option.bind_eq_some] at hp
      obtain ⟨pv, hpv', hp⟩ := hp
      rw [Option.bind_eq_some] at hp
      obtain ⟨p, hsp, hp⟩ := hp
      rw [Option.map_eq_some'] at hp
      obtain ⟨t, hst, hst'⟩ := hp
      rw [setN_eq_some] at hsp hst
      obtain ⟨_, hpe⟩ := hsp
      obtain ⟨_, hte⟩ := hst
      subst hst'
      subst hpe
      subst hte
      refine ⟨he, by simpa using hpl, ?_, ?_⟩
      · simp; omega
      · intro hfl
        simp at hfl
        omega

theorem runLoop_inv {lst : List α} {cmp : α → α → Int} (m : Nat) :
    ∀ (k : Nat) (st st' : lnds.state α), 1 ≤ k → Inv lst k st →
      lnds.runLoop cmp st (List.range' k m) = some st' → Inv lst (k + m) st' := by
  induction m with
  | zero =>
    intro k st st' hk hinv hrl
    rw [List.range'_zero] at hrl
    simp only [lnds.runLoop] at hrl
    injection hrl with h
    subst h
    exact hinv
  | succ m ih =>
    intro k st st' hk hinv hrl
    rw [List.range'_succ] at hrl
    simp only [lnds.runLoop] at hrl
    cases hps : lnds.process cmp st k with
    | none => rw [hps] at hrl; exact Option.noConfusion hrl
    | some st1 =>
      rw [hps] at hrl
      have h1 := inv_step hk hinv hps
      have h2 := ih (k + 1) st1 st' (by omega) h1 hrl
      have he : k + 1 + m = k + (m + 1) := by omega
      rwa [he] at h2

theorem resultGo_diag [Inhabited α] {elts : List α} {prev : List Int}
    (hpv : ∀ j, j < elts.length → prev.get? j = some (if j = 0 then -1 else (j : Int) - 1)) :
    ∀ m, m ≤ elts.length →
      lnds.resultGo elts prev m ((m : Int) - 1)
        (List.replicate m (default : α) ++ elts.drop m) [] ((m : Int) - 1) (-1)
      = some (elts, []) := by
  intro m
  induction m with
  | zero => intro _; simp [lnds.resultGo]
  | succ m ih =>
    intro hm
    have hmn : m < elts.length := by omega
    unfold lnds.resultGo
    rw [if_pos (by push_cast; omega)]
    rw [getI_nonneg (by push_cast; omega)]
    have htn : ((((m : Nat) + 1 : Nat) : Int) - 1).toNat = m := by omega
    rw [htn]
    rw [List.get?_eq_get hmn]
    rw [Option.some_bind]
    rw [getI_nonneg (by push_cast; omega), htn, hpv m hmn, Option.some_bind]
    have hlsort : m < (List.replicate (m + 1) (default : α) ++ elts.drop (m + 1)).length := by
      rw [List.length_append, List.length_replicate, List.length_drop]
      omega
    rw [setI_eq_some (List.replicate (m + 1) (default : α) ++ elts.drop (m + 1))
      (((m + 1 : Nat) : Int) - 1) (elts.get ⟨m, hmn⟩) (by push_cast; omega)
      (by rw [htn]; exact hlsort)]
    rw [Option.some_bind]
    rw [htn, set_replicate_append]
    rw [← List.drop_eq_get_cons hmn]
    have hseq : (if m = 0 then (-1 : Int) else (m : Int) - 1) = (m : Int) - 1 := by
      by_cases h0 : m = 0 <;> simp [h0]
    have hsi : (((m + 1 : Nat)) : Int) - 1 - 1 = (m : Int) - 1 := by push_cast; omega
    rw [hseq, hsi]
    exact ih (by omega)

theorem result_of_full [Inhabited α] (st : lnds.state α)
    (hn : 1 ≤ st.elts.length)
    (htr : st.tails = List.range st.elts.length)
    (hpv : ∀ j, j < st.elts.length →
      st.prev.get? j = some (if j = 0 then -1 else (j : Int) - 1)) :
    lnds.result st = some (st.elts, []) := by
  have hd := resultGo_diag hpv st.elts.length le_rfl
  rw [List.drop_length, List.append_nil] at hd
  unfold lnds.result
  rw [htr]
  simp only [List.length_range, List.length_replicate, Nat.sub_self, List.replicate_zero,
    List.length_nil, Nat.cast_zero, zero_sub]
  rw [getI_last_range hn, Option.some_bind]
  have hc : ((st.elts.length - 1 : Nat) : Int) = (st.elts.length : Int) - 1 := by omega
  rw [hc]
  exact hd

/-- Claim C9: when the discovered longest subsequence spans the entire input
(the builder finishes with one tails entry per input element), the
short-circuited result of state.run — the whole input as the kept output and
an empty removed output — is identical, as output values, to what the general
backward-reconstruction path state.result produces on the same state. -/
theorem lnds_shortcircuit_eq_general [Inhabited α] (cmp : α → α → Int)
    (lst : List α) (st : lnds.state α)
    (hb : lnds.runLoop cmp (lnds.state.mk lst [0] (List.replicate lst.length 0))
        (List.range lst.length) = some st)
    (hlen : st.tails.length = st.elts.length) :
    lnds.result st = some (lst, ([] : List α)) := by
  cases hn : lst.length with
  | zero =>
    rw [hn] at hb
    simp only [List.range_zero, lnds.runLoop] at hb
    injection hb with hb
    rw [← hb] at hlen
    simp [hn] at hlen
  | succ m =>
    rw [hn, List.range_eq_range', List.range'_succ] at hb
    simp only [lnds.runLoop, Nat.zero_add] at hb
    have hp0 : lnds.process cmp (lnds.state.mk lst [0] (List.replicate (m + 1) 0)) 0
        = some (lnds.state.mk lst [0] ((List.replicate (m + 1) 0).set 0 (-1))) := by
      unfold lnds.process
      rw [if_pos rfl]
      simp [setN]
    rw [hp0] at hb
    have hinv1 : Inv lst 1 (lnds.state.mk lst [0] ((List.replicate (m + 1) 0).set 0 (-1))) := by
      refine ⟨rfl, by simp [hn], by simp, fun _ => ⟨range_one_eq.symm, ?_⟩⟩
      intro j hj
      have hj0 : j = 0 := by omega
      subst hj0
      simp only [if_pos rfl]
      exact List.get?_set_eq_of_lt _ (by simp)
    have hinvN := runLoop_inv m 1 _ st le_rfl hinv1 hb
    have h1m : 1 + m = lst.length := by omega
    rw [h1m] at hinvN
    obtain ⟨he, hpl, hlenle, hfull⟩ := hinvN
    have hstl : st.elts.length = lst.length := by rw [he]
    obtain ⟨htr, hpv⟩ := hfull (by omega)
    have hres := result_of_full st (by omega) (by rw [htr, hstl]) (by rw [hstl]; exact hpv)
    rw [he] at hres
    exact hres

/-- Witness for claim C9 at the concrete sorted input [1,2,3]: the builder
finishes with tails [0,1,2] (one entry per element), and the general
reconstruction path on that state returns the whole input as kept and
nothing removed, exactly the short-circuit value. -/
theorem lnds_shortcircuit_eq_general_witness :
    lnds.runLoop intCmp (lnds.state.mk ([1, 2, 3] : List Int) [0] (List.replicate 3 0))
        (List.range 3)
      = some (lnds.state.mk ([1, 2, 3] : List Int) [0, 1, 2] [-1, 0, 1]) ∧
    lnds.result (lnds.state.mk ([1, 2, 3] : List Int) [0, 1, 2] [-1, 0, 1])
      = some ([1, 2, 3], []) :=
  ⟨by decide, lnds_shortcircuit_eq_general intCmp [1, 2, 3]
    (lnds.state.mk ([1, 2, 3] : List Int) [0, 1, 2] [-1, 0, 1]) (by decide) (by decide)⟩

/-- Claim C1: the claim quantifies over both implementations, but on the
spec's own example input lnds.PartitionUnsorted panics (the equal-run scan
indexes elts out of range), returning no kept output at all, while the true
longest non-decreasing subsequence length is 6 and lis.LIS does return a
kept output of length 6. -/
theorem c1_maximality :
    lnds.PartitionUnsorted ([2, 1, 3, 4, 3, 6, 3, 5, 8, 3, 7] : List Int) intCmp = none ∧
    lndsLength intCmp ([2, 1, 3, 4, 3, 6, 3, 5, 8, 3, 7] : List Int) = 6 ∧
    (lis.LIS ([2, 1, 3, 4, 3, 6, 3, 5, 8, 3, 7] : List Int) intCmp).map
        (fun p => p.1.length)
      = some 6 := by
  refine ⟨by decide, by decide, by decide⟩

/-- Claim C2: on input [1,2,1] lnds.PartitionUnsorted panics and returns no
kept sequence at all, so the claim fails for it; lis.LIS on the same input
returns the kept sequence [1,1], which is non-decreasing under the
comparator. -/
theorem c2_nondecreasing :
    lnds.PartitionUnsorted ([1, 2, 1] : List Int) intCmp = none ∧
    lis.LIS ([1, 2, 1] : List Int) intCmp = some ([1, 1], [2]) ∧
    nonDecr intCmp [1, 1] = true := by
  refine ⟨by decide, by decide, by decide⟩

/-- Claim C3: on input [1,3,1] lnds.PartitionUnsorted panics and returns no
outputs, so there are no kept and removed whose lengths sum to the input
length; lis.LIS on the same input returns the complete partition
([1,1],[3]). -/
theorem c3_partition_complete :
    lnds.PartitionUnsorted ([1, 3, 1] : List Int) intCmp = none ∧
    lis.LIS ([1, 3, 1] : List Int) intCmp = some ([1, 1], [3]) := by
  refine ⟨by decide, by decide⟩

/-- Claim C4: on input [2,3,2] lnds.PartitionUnsorted panics and returns no
outputs, so the subsequence property has no outputs to hold of; lis.LIS
returns ([2,2],[3]), and both of its outputs are genuine sublists of the
input. -/
theorem c4_subsequences :
    lnds.PartitionUnsorted ([2, 3, 2] : List Int) intCmp = none ∧
    lis.LIS ([2, 3, 2] : List Int) intCmp = some ([2, 2], [3]) ∧
    [2, 2] ∈ ([2, 3, 2] : List Int).sublists ∧
    [3] ∈ ([2, 3, 2] : List Int).sublists := by
  refine ⟨by decide, by decide, by decide, by decide⟩

/-- Claim C5: on the spec's equal-run example, lis.LIS (whose bisectRight is
a genuine rightmost search) returns exactly the kept and removed sequences
the spec states, but lnds.PartitionUnsorted panics: its equal-run scan never
advances past the run and replaces — the break in the switch only leaves the
switch, and the scan reads elts at a tails position — so it runs off the end
of elts. -/
theorem c5_equal_run :
    lis.LIS ([2, 1, 3, 4, 3, 6, 3, 5, 8, 3, 7] : List Int) intCmp
      = some ([1, 3, 3, 3, 3, 7], [2, 4, 6, 5, 8]) ∧
    lnds.PartitionUnsorted ([2, 1, 3, 4, 3, 6, 3, 5, 8, 3, 7] : List Int) intCmp = none := by
  refine ⟨by decide, by decide⟩

/-- Claim C6: on the empty input lis.LIS returns two empty sequences as the
spec states, but lnds.PartitionUnsorted panics: make with length 1 and
capacity 0 is a runtime panic in Go. -/
theorem c6_empty_input :
    lis.LIS ([] : List Int) intCmp = some ([], []) ∧
    lnds.PartitionUnsorted ([] : List Int) intCmp = none := by
  refine ⟨by decide, by decide⟩

/-- Claim C7: the no-crash claim fails for lnds.PartitionUnsorted even under
the well-behaved total-order comparator: it panics on the empty input (make
with length above capacity) and on [0,1,0] (equal-run scan indexes elts out
of range). -/
theorem c7_no_crash :
    lnds.PartitionUnsorted ([] : List Int) intCmp = none ∧
    lnds.PartitionUnsorted ([0, 1, 0] : List Int) intCmp = none := by
  refine ⟨by decide, by decide⟩

/-- Claim C8: the smallest-end-value tails invariant fails for the lnds
builder. After processing the first three elements of [2,5,2,0], the buggy
found-branch drops the second 2 and the builder state keeps tails = [0,1],
so the recorded best tail for length-2 subsequences is the value 5 at
position 1 — yet [2,2] is a non-decreasing subsequence of the processed
prefix [2,5,2] of length 2 whose end value 2 compares strictly less than
5. -/
theorem c8_tails_invariant :
    lnds.runLoop intCmp (lnds.state.mk ([2, 5, 2, 0] : List Int) [0] (List.replicate 4 0))
        (List.range 3)
      = some (lnds.state.mk ([2, 5, 2, 0] : List Int) [0, 1] [-1, 0, 0, 0]) ∧
    [2, 2] ∈ (([2, 5, 2, 0] : List Int).take 3).sublists ∧
    nonDecr intCmp [2, 2] = true ∧
    intCmp 2 5 = -1 := by
  refine ⟨by decide, by decide, by decide, by decide⟩

/-- Claim C10: the two implementations do not compute the same function. On
[2,5,2,0] both return without crashing, but lis.LIS keeps [2,2] while
lnds.PartitionUnsorted — whose buggy found-branch silently drops the second
2 — keeps [2,5], so the output pairs differ. -/
theorem c10_equivalence :
    lis.LIS ([2, 5, 2, 0] : List Int) intCmp = some ([2, 2], [5, 0]) ∧
    lnds.PartitionUnsorted ([2, 5, 2, 0] : List Int) intCmp = some ([2, 5], [2, 0]) ∧
    lis.LIS ([2, 5, 2, 0] : List Int) intCmp
      ≠ lnds.PartitionUnsorted ([2, 5, 2, 0] : List Int) intCmp := by
  refine ⟨by decide, by decide, by decide⟩

end GoLnds
